import Mathlib

/-!
Shallow embedding of `src/services/scheduler.py` (the Publish Slot Scheduler)
and proofs about the claims of the specification.

Time model: a Python `datetime` in the configured timezone is represented by
the number of minutes since an arbitrary epoch (`Nat`).  All datetimes that
the scheduler compares or stores are normalized to whole minutes (the code
zeroes `second`/`microsecond` on every value that enters a comparison), so
minute granularity is sufficient.  The configured timezone is modelled as the
identity conversion (the reference configuration in the spec uses UTC); every
`astimezone` call in the source is therefore the identity and all arithmetic
happens directly on the local wall-clock value.
-/

namespace TinyshScheduler

/-- `datetime.date()` as a day index: minutes since epoch divided by 1440. -/
def day (t : Nat) : Nat := t / 1440

/-- `datetime.hour`: the hour-of-day component of an instant. -/
def hourOf (t : Nat) : Nat := t % 1440 / 60

/-- `datetime.minute`: the minute-of-hour component of an instant. -/
def minuteOf (t : Nat) : Nat := t % 60

/-- `dt.replace(minute=0, second=0, microsecond=0)`: truncate to the top of
the current hour. -/
def truncHour (t : Nat) : Nat := t - t % 60

/-- `dt.replace(hour=h)`: replace the hour component, keeping day and
minute.  (Python requires `0 ≤ h ≤ 23`; all call sites use configured hours,
which are in that range.) -/
def replaceHour (t h : Nat) : Nat := day t * 1440 + h * 60 + minuteOf t

/-- `dt.replace(hour=h, minute=0, second=0, microsecond=0)`: replace the hour
component and truncate to the top of the hour. -/
def replaceHourMinute0 (t h : Nat) : Nat := day t * 1440 + h * 60

/-- The configuration state of a constructed `VideoScheduler`
(`self.start_hour`, `self.end_hour`, `self.interval_hours`).  The timezone
field is modelled away (identity conversion, see the file comment). -/
structure VideoScheduler where
  start_hour : Nat
  end_hour : Nat
  interval_hours : Nat
deriving DecidableEq, Repr

/-- `VideoScheduler._calculate_slots_per_day` for a validly constructed
scheduler: `(end_hour - start_hour) // interval_hours + 1`. -/
def calculate_slots_per_day (c : VideoScheduler) : Nat :=
  (c.end_hour - c.start_hour) / c.interval_hours + 1

/-- `VideoScheduler.__init__` with explicit integer parameters, modelling the
two ways construction can fail:
* `start_hour >= end_hour` raises `ValueError` (the explicit validation);
* `interval_hours == 0` raises `ZeroDivisionError` inside
  `_calculate_slots_per_day` (`available_hours // self.interval_hours`).
On success it returns the stored fields together with `slots_per_day`,
computed with Python floor division (`Int.fdiv`).  Note the code performs no
check at all on `interval_hours` itself. -/
def VideoScheduler.init (start_hour end_hour interval_hours : Int) :
    Option (Int × Int × Int × Int) :=
  if end_hour ≤ start_hour then none
  else if interval_hours = 0 then none
  else some (start_hour, end_hour, interval_hours,
    Int.fdiv (end_hour - start_hour) interval_hours + 1)

/-- The `start_date is None` branch of `VideoScheduler.calculate_schedule`
(scheduler.py lines 96-126): compute the earliest slot from `now`.  Before
`start_hour` today, start today at `start_hour`; at or past `end_hour`, start
tomorrow at `start_hour`; otherwise take the next interval-aligned slot
today, or tomorrow's `start_hour` if that slot would pass `end_hour`. -/
def default_start (c : VideoScheduler) (now_local : Nat) : Nat :=
  if hourOf now_local < c.start_hour then
    replaceHourMinute0 now_local c.start_hour
  else if c.end_hour ≤ hourOf now_local then
    replaceHourMinute0 (now_local + 1440) c.start_hour
  else
    let hours_since_start := hourOf now_local - c.start_hour
    let intervals_passed := hours_since_start / c.interval_hours
    let next_interval_hour :=
      c.start_hour + (intervals_passed + 1) * c.interval_hours
    if next_interval_hour ≤ c.end_hour then
      replaceHourMinute0 now_local next_interval_hour
    else
      replaceHourMinute0 (now_local + 1440) c.start_hour

/-- The "Ensure start time is valid" block of `calculate_schedule`
(scheduler.py lines 128-139): clamp an hour below `start_hour` up to
`start_hour`, roll an hour strictly above `end_hour` to the next day's
`start_hour`, then `replace(minute=0, second=0, microsecond=0)`. -/
def ensure_valid_start (c : VideoScheduler) (sd : Nat) : Nat :=
  let sd2 :=
    if hourOf sd < c.start_hour then replaceHourMinute0 sd c.start_hour
    else if c.end_hour < hourOf sd then
      replaceHourMinute0 (sd + 1440) c.start_hour
    else sd
  truncHour sd2

/-- The full start-reference resolution performed at the top of
`VideoScheduler.calculate_schedule` (the timezone conversion of a provided
reference is the identity in this model). -/
def resolve_start (c : VideoScheduler) (start_date : Option Nat)
    (now_local : Nat) : Nat :=
  ensure_valid_start c
    (match start_date with
     | none => default_start c now_local
     | some t => t)

/-- The slot-assignment loop of `VideoScheduler.calculate_schedule`
(scheduler.py lines 145-160): each iteration rolls to the next day's
`start_hour` when the current hour exceeds `end_hour`, appends the current
instant, and advances by `interval_hours`. -/
def schedule_loop (c : VideoScheduler) : Nat → Nat → List Nat
  | 0, _ => []
  | n + 1, current_date =>
    let cur :=
      if c.end_hour < hourOf current_date then
        replaceHourMinute0 (current_date + 1440) c.start_hour
      else current_date
    cur :: schedule_loop c n (cur + 60 * c.interval_hours)

/-- `VideoScheduler.calculate_schedule`.  `video_count` is an `Int` because
Python callers may pass any integer; the guard returns `[]` for
`video_count <= 0` before the start reference is even looked at. -/
def calculate_schedule (c : VideoScheduler) (video_count : Int)
    (start_date : Option Nat) (now_local : Nat) : List Nat :=
  if video_count ≤ 0 then []
  else schedule_loop c video_count.toNat (resolve_start c start_date now_local)

/-- The same-day interval check of `VideoScheduler.validate_schedule`:
`abs(time_diff - interval_hours) > 0.1` hours.  At minute granularity this is
exactly `|dt - prev - 60*interval| > 6` minutes (0.1 h = 6 min). -/
def interval_violation (c : VideoScheduler) (prev dt : Nat) : Bool :=
  decide (6 < ((dt : Int) - (prev : Int) - 60 * (c.interval_hours : Int)).natAbs)

/-- The body of the `for i, dt in enumerate(schedule_local)` loop of
`validate_schedule` for indices `i > 0`: first the hour-range check, then the
same-day interval check against the previous element.  A `ValueError`
raised by the Python code is modelled as `Except.error`. -/
def validate_from (c : VideoScheduler) (prev : Nat) :
    List Nat → Except String Bool
  | [] => Except.ok true
  | dt :: rest =>
    if hourOf dt < c.start_hour ∨ c.end_hour < hourOf dt then
      Except.error "scheduled hour outside allowed range"
    else if day prev = day dt ∧ interval_violation c prev dt = true then
      Except.error "interval mismatch"
    else validate_from c dt rest

/-- `VideoScheduler.validate_schedule`: returns `True` for an empty schedule;
otherwise checks the first element's hour (no interval check at index 0) and
then iterates.  Raised `ValueError`s are modelled as `Except.error`. -/
def validate_schedule (c : VideoScheduler) :
    List Nat → Except String Bool
  | [] => Except.ok true
  | dt :: rest =>
    if hourOf dt < c.start_hour ∨ c.end_hour < hourOf dt then
      Except.error "scheduled hour outside allowed range"
    else validate_from c dt rest

/-- `earliest_valid_time` in `calculate_next_available_slot`: `now` truncated
to the top of the current hour plus a 5-minute buffer. -/
def earliest_valid_time (now_local : Nat) : Nat := truncHour now_local + 5

/-- The inner `while current_slot.hour <= end_hour` loop of
`calculate_next_available_slot` that generates one day's slots: append the
slot, advance by `interval_hours`, and break if the advance crossed into the
next calendar day.  The `while` loop is modelled with fuel; 25 units are more
than the at most 24 iterations the loop can perform when
`interval_hours ≥ 1`. -/
def day_slots_aux (c : VideoScheduler) (check_day : Nat) :
    Nat → Nat → List Nat
  | 0, _ => []
  | fuel + 1, current_slot =>
    if hourOf current_slot ≤ c.end_hour then
      current_slot ::
        (if day (current_slot + 60 * c.interval_hours) ≠ check_day then []
         else day_slots_aux c check_day fuel
           (current_slot + 60 * c.interval_hours))
    else []

/-- One day's worth of potential slots (`check_date.replace(hour=start_hour)`
followed by the generation loop). -/
def day_slots (c : VideoScheduler) (check_date : Nat) : List Nat :=
  day_slots_aux c (day check_date) 25 (replaceHour check_date c.start_hour)

/-- Insert into a sorted list (helper for the model of Python's
`list.sort()`). -/
def insertSorted (a : Nat) : List Nat → List Nat
  | [] => [a]
  | b :: l => if a ≤ b then a :: b :: l else b :: insertSorted a l

/-- Model of Python's `list.sort()` on a list of instants: a stable
comparison sort (insertion sort, chosen because it is structurally
recursive). -/
def sortList : List Nat → List Nat
  | [] => []
  | a :: l => insertSorted a (sortList l)

/-- `potential_slots` of `calculate_next_available_slot`: slots of the next
30 days starting from `now.replace(hour=start_hour, minute=0, ...)`, followed
by the `potential_slots.sort()` call. -/
def potential_slots (c : VideoScheduler) (now_local : Nat) : List Nat :=
  sortList ((List.range 30).flatMap fun day_offset =>
    day_slots c (replaceHourMinute0 now_local c.start_hour + 1440 * day_offset))

/-- The slot search loop of `calculate_next_available_slot` (scheduler.py
lines 311-317): the first potential slot that is at or after
`earliest_valid_time` and is not in the occupied set. -/
def free_slot_search (c : VideoScheduler)
    (scheduled_times_local : List Nat) (now_local : Nat) : Option Nat :=
  (potential_slots c now_local).find? fun slot =>
    decide (earliest_valid_time now_local ≤ slot ∧
      slot ∉ scheduled_times_local)

/-- The horizon-exhausted fallback of `calculate_next_available_slot`
(scheduler.py lines 319-336): `max(occupied) + interval_hours` clamped into
the daily window when the occupied set is non-empty, tomorrow's `start_hour`
when it is empty. -/
def fallback_slot (c : VideoScheduler)
    (scheduled_times_local : List Nat) (now_local : Nat) : Nat :=
  match scheduled_times_local.max? with
  | some last_scheduled =>
    let next_slot := last_scheduled + 60 * c.interval_hours
    if c.end_hour < hourOf next_slot then
      replaceHour (next_slot + 1440) c.start_hour
    else if hourOf next_slot < c.start_hour then
      replaceHour next_slot c.start_hour
    else next_slot
  | none => replaceHourMinute0 (now_local + 1440) c.start_hour

/-- `VideoScheduler.calculate_next_available_slot`, at the level of the
already-parsed occupied set (`scheduled_times_local` in the source, modelled
as a list of normalized instants): find the first potential slot that is at
or after `earliest_valid_time` and not occupied; otherwise run the
documented fallback. -/
def calculate_next_available_slot (c : VideoScheduler)
    (scheduled_times_local : List Nat) (now_local : Nat) : Nat :=
  match free_slot_search c scheduled_times_local now_local with
  | some slot => slot
  | none => fallback_slot c scheduled_times_local now_local

/-- The reservation-parsing prologue of `calculate_next_available_slot`
(scheduler.py lines 269-281).  A video dict is modelled by its
`video.get("publishAt")` value (`Option String`); `parse` stands for
`parse_rfc3339_datetime`, whose failure (any exception, caught by the
`try/except`) is `none`.  Falsy (`None` or empty) `publishAt` values are
skipped by `if publish_at_str:`; successfully parsed values are normalized
with `replace(minute=0, second=0, microsecond=0)`. -/
def build_scheduled_times (parse : String → Option Nat)
    (videos : List (Option String)) : List Nat :=
  videos.filterMap fun publish_at =>
    match publish_at with
    | none => none
    | some s => if s = "" then none else (parse s).map truncHour

/-- `calculate_next_available_slot` taken from the raw video-dict list: build
the occupied set (dropping unparsable entries), then run the slot search. -/
def calculate_next_available_slot_from_videos (parse : String → Option Nat)
    (c : VideoScheduler) (videos : List (Option String))
    (now_local : Nat) : Nat :=
  calculate_next_available_slot c (build_scheduled_times parse videos) now_local

/-- The caller discipline specified for the Gap-Filling Allocator: call
`calculate_next_available_slot` once per item, inserting each returned slot
into the occupied set before the next call (this is the loop in
`src/main.py` lines 545-549, with identity timezone). -/
def allocate_batch (c : VideoScheduler) (occ : List Nat) (now_local : Nat) :
    Nat → List Nat
  | 0 => []
  | n + 1 =>
    let slot := calculate_next_available_slot c occ now_local
    slot :: allocate_batch c (slot :: occ) now_local n

/-- A concrete occupied set that exhausts the 30-day horizon for the
configuration `start_hour=6, end_hour=7, interval_hours=2` (one slot per day,
at hour 6) and `now = 360` (day 0, 06:00): every horizon slot at or after
`earliest_valid_time 360 = 365` — the 06:00 slots of days 1 through 29 — is
occupied. -/
def occ_exhausted : List Nat :=
  (List.range 29).map fun k => (k + 1) * 1440 + 360

/-! ## Helper lemmas -/

theorem hourOf_lt_24 (t : Nat) : hourOf t < 24 := by
  unfold hourOf; omega

theorem mem_insertSorted {x a : Nat} {l : List Nat} :
    x ∈ insertSorted a l ↔ x = a ∨ x ∈ l := by
  induction l with
  | nil => simp [insertSorted]
  | cons b l ih =>
    by_cases h : a ≤ b
    · simp [insertSorted, if_pos h]
    · simp [insertSorted, if_neg h, ih]
      tauto

theorem mem_sortList {x : Nat} {l : List Nat} : x ∈ sortList l ↔ x ∈ l := by
  induction l with
  | nil => simp [sortList]
  | cons a l ih => simp [sortList, mem_insertSorted, ih]

theorem le_foldl_max (l : List Nat) :
    ∀ a : Nat, a ≤ l.foldl max a ∧ ∀ b ∈ l, b ≤ l.foldl max a := by
  induction l with
  | nil => intro a; exact ⟨le_refl a, by simp⟩
  | cons c l ih =>
    intro a
    have h := ih (max a c)
    simp only [List.foldl_cons]
    refine ⟨le_trans (le_max_left a c) h.1, ?_⟩
    intro b hb
    rcases List.mem_cons.mp hb with rfl | hb
    · exact le_trans (le_max_right a b) h.1
    · exact h.2 b hb

theorem le_of_mem_max? {l : List Nat} {a m : Nat} (ha : a ∈ l)
    (hm : l.max? = some m) : a ≤ m := by
  cases l with
  | nil => cases ha
  | cons x xs =>
    have hx : (x :: xs).max? = some (xs.foldl max x) := rfl
    rw [hx] at hm
    injection hm with hm
    subst hm
    rcases List.mem_cons.mp ha with rfl | h
    · exact (le_foldl_max xs a).1
    · exact (le_foldl_max xs x).2 a h

theorem mem_potential_slots {c : VideoScheduler} {now_local t : Nat} :
    t ∈ potential_slots c now_local ↔
      ∃ off, off < 30 ∧
        t ∈ day_slots c
          (replaceHourMinute0 now_local c.start_hour + 1440 * off) := by
  unfold potential_slots
  rw [mem_sortList, List.mem_flatMap]
  constructor
  · rintro ⟨off, hoff, hmem⟩
    exact ⟨off, List.mem_range.mp hoff, hmem⟩
  · rintro ⟨off, hoff, hmem⟩
    exact ⟨off, List.mem_range.mpr hoff, hmem⟩

theorem mem_day_slots_aux_self {c : VideoScheduler} {bd fuel slot : Nat}
    (h : hourOf slot ≤ c.end_hour) :
    slot ∈ day_slots_aux c bd (fuel + 1) slot := by
  unfold day_slots_aux
  rw [if_pos h]
  exact List.mem_cons_self _ _

theorem day_slots_aux_mem_day {c : VideoScheduler} {bd : Nat} :
    ∀ fuel slot, day slot = bd →
      ∀ t ∈ day_slots_aux c bd fuel slot, day t = bd := by
  intro fuel
  induction fuel with
  | zero => intro slot _ t ht; simp [day_slots_aux] at ht
  | succ n ih =>
    intro slot hd t ht
    unfold day_slots_aux at ht
    by_cases h1 : hourOf slot ≤ c.end_hour
    · rw [if_pos h1] at ht
      rcases List.mem_cons.mp ht with rfl | ht2
      · exact hd
      · by_cases h2 : day (slot + 60 * c.interval_hours) ≠ bd
        · rw [if_pos h2] at ht2; cases ht2
        · rw [if_neg h2] at ht2
          exact ih _ (not_not.mp h2) t ht2
    · rw [if_neg h1] at ht; cases ht

theorem day_slots_aux_last {c : VideoScheduler} {bd : Nat}
    (he : c.end_hour ≤ 23) (hiv : 1 ≤ c.interval_hours) :
    ∀ fuel slot, hourOf slot ≤ c.end_hour → day slot = bd →
      24 ≤ fuel + hourOf slot →
      ∃ l ∈ day_slots_aux c bd fuel slot,
        day l = bd ∧ hourOf l ≤ c.end_hour ∧
          c.end_hour < hourOf l + c.interval_hours := by
  intro fuel
  induction fuel with
  | zero =>
    intro slot hh _ hfuel
    omega
  | succ n ih =>
    intro slot hh hd hfuel
    unfold day_slots_aux
    rw [if_pos hh]
    by_cases h2 : day (slot + 60 * c.interval_hours) ≠ bd
    · rw [if_pos h2]
      refine ⟨slot, List.mem_cons_self _ _, hd, hh, ?_⟩
      rw [← hd] at h2
      unfold day at h2
      unfold hourOf
      omega
    · rw [if_neg h2]
      have hdnext : day (slot + 60 * c.interval_hours) = bd := not_not.mp h2
      have hhnext : hourOf (slot + 60 * c.interval_hours) =
          hourOf slot + c.interval_hours := by
        rw [← hd] at hdnext
        unfold day at hdnext
        unfold hourOf
        omega
      by_cases h3 : hourOf (slot + 60 * c.interval_hours) ≤ c.end_hour
      · obtain ⟨l, hlmem, hlprops⟩ := ih (slot + 60 * c.interval_hours) h3
          hdnext (by omega)
        exact ⟨l, List.mem_cons_of_mem _ hlmem, hlprops⟩
      · exact ⟨slot, List.mem_cons_self _ _, hd, hh, by omega⟩

theorem free_slot_search_some {c : VideoScheduler} {occ : List Nat}
    {now_local slot : Nat} (h : free_slot_search c occ now_local = some slot) :
    slot ∈ potential_slots c now_local ∧
      earliest_valid_time now_local ≤ slot ∧ slot ∉ occ := by
  unfold free_slot_search at h
  refine ⟨List.mem_of_find?_eq_some h, ?_⟩
  have hp := List.find?_some h
  simp only [decide_eq_true_eq] at hp
  exact hp

theorem free_slot_search_none {c : VideoScheduler} {occ : List Nat}
    {now_local : Nat} (h : free_slot_search c occ now_local = none) :
    ∀ slot ∈ potential_slots c now_local,
      earliest_valid_time now_local ≤ slot → slot ∈ occ := by
  unfold free_slot_search at h
  intro slot hmem hev
  have hp := List.find?_eq_none.mp h slot hmem
  by_contra hnot
  exact hp (decide_eq_true ⟨hev, hnot⟩)

theorem fallback_slot_gt_max {c : VideoScheduler} {occ : List Nat}
    (now_local : Nat) {last : Nat} (hiv : 1 ≤ c.interval_hours)
    (hm : occ.max? = some last) : last < fallback_slot c occ now_local := by
  unfold fallback_slot
  rw [hm]
  simp only [replaceHour, day, hourOf, minuteOf]
  split
  · omega
  · split <;> omega

theorem next_slot_not_mem {c : VideoScheduler} {occ : List Nat}
    {now_local : Nat} (hiv : 1 ≤ c.interval_hours) :
    calculate_next_available_slot c occ now_local ∉ occ := by
  unfold calculate_next_available_slot
  cases hfind : free_slot_search c occ now_local with
  | some slot => exact (free_slot_search_some hfind).2.2
  | none =>
    show fallback_slot c occ now_local ∉ occ
    cases hmax : occ.max? with
    | none =>
      rw [List.max?_eq_none_iff] at hmax
      subst hmax
      exact List.not_mem_nil _
    | some last =>
      intro hmem
      have h1 := le_of_mem_max? hmem hmax
      have h2 := fallback_slot_gt_max now_local hiv hmax
      omega

theorem allocate_batch_aux (c : VideoScheduler) (now_local : Nat)
    (hiv : 1 ≤ c.interval_hours) :
    ∀ n occ, (∀ x ∈ allocate_batch c occ now_local n, x ∉ occ) ∧
      (allocate_batch c occ now_local n).Pairwise (· ≠ ·) := by
  intro n
  induction n with
  | zero => intro occ; simp [allocate_batch]
  | succ m ih =>
    intro occ
    simp only [allocate_batch]
    obtain ⟨ih1, ih2⟩ :=
      ih (calculate_next_available_slot c occ now_local :: occ)
    constructor
    · intro x hx
      rcases List.mem_cons.mp hx with rfl | hx2
      · exact next_slot_not_mem hiv
      · intro hxo
        exact ih1 x hx2 (List.mem_cons_of_mem _ hxo)
    · rw [List.pairwise_cons]
      refine ⟨?_, ih2⟩
      intro y hy hEq
      exact ih1 y hy (hEq ▸ List.mem_cons_self _ _)

theorem first_slot_mem_potential (c : VideoScheduler) (now_local off : Nat)
    (hs23 : c.start_hour ≤ 23) (hse : c.start_hour ≤ c.end_hour)
    (hoff : off < 30) :
    (day now_local + off) * 1440 + c.start_hour * 60 ∈
      potential_slots c now_local := by
  rw [mem_potential_slots]
  refine ⟨off, hoff, ?_⟩
  unfold day_slots
  have hb : replaceHour
      (replaceHourMinute0 now_local c.start_hour + 1440 * off) c.start_hour
      = (day now_local + off) * 1440 + c.start_hour * 60 := by
    unfold replaceHour replaceHourMinute0 day minuteOf
    omega
  rw [hb]
  have h25 : (25 : Nat) = 24 + 1 := rfl
  rw [h25]
  apply mem_day_slots_aux_self
  unfold hourOf
  omega

theorem day_slots_mem_day {c : VideoScheduler} (hs23 : c.start_hour ≤ 23)
    {d t : Nat} (ht : t ∈ day_slots c d) : day t = day d := by
  unfold day_slots at ht
  refine day_slots_aux_mem_day 25 (replaceHour d c.start_hour) ?_ t ht
  simp only [day, replaceHour, minuteOf]
  omega

theorem day_slots_last {c : VideoScheduler} (hs : c.start_hour < c.end_hour)
    (he : c.end_hour ≤ 23) (hiv : 1 ≤ c.interval_hours) (d : Nat) :
    ∃ l ∈ day_slots c d, day l = day d ∧ hourOf l ≤ c.end_hour ∧
      c.end_hour < hourOf l + c.interval_hours := by
  unfold day_slots
  apply day_slots_aux_last he hiv 25 (replaceHour d c.start_hour)
  · simp only [hourOf, replaceHour, day, minuteOf]
    omega
  · simp only [day, replaceHour, minuteOf]
    omega
  · have := hourOf_lt_24 (replaceHour d c.start_hour)
    omega

theorem fallback_branch_day {c : VideoScheduler} {now_local l last : Nat}
    (hiv : 1 ≤ c.interval_hours) (he : c.end_hour ≤ 23)
    (hs23 : c.start_hour ≤ 23) (hdl : day l = day now_local)
    (hhl : hourOf l ≤ c.end_hour) (hlast : l ≤ last)
    (hjump : c.end_hour < hourOf l + c.interval_hours) :
    day now_local <
      day (if c.end_hour < hourOf (last + 60 * c.interval_hours) then
        replaceHour (last + 60 * c.interval_hours + 1440) c.start_hour
      else if hourOf (last + 60 * c.interval_hours) < c.start_hour then
        replaceHour (last + 60 * c.interval_hours) c.start_hour
      else last + 60 * c.interval_hours) := by
  simp only [day, hourOf, replaceHour, minuteOf] at *
  split
  · omega
  · split <;> omega

/-! ## Claims -/

/-- C1: for every call sequence of the Gap-Filling Allocator in which each
returned slot is inserted into the occupied set before the next call, with
the same `now` (hence the same earliest-valid instant) throughout, the `n`
returned slots are pairwise distinct.  Holds for every constructed scheduler
(`interval_hours ≥ 1`), every initial occupied set and every `now`. -/
theorem allocate_batch_pairwise_distinct (c : VideoScheduler) (occ : List Nat)
    (now_local n : Nat) (hiv : 1 ≤ c.interval_hours) :
    (allocate_batch c occ now_local n).Pairwise (· ≠ ·) :=
  (allocate_batch_aux c now_local hiv n occ).2

/-- Witness for C1: three slots allocated against an initially empty occupied
set with the reference configuration are pairwise distinct. -/
theorem allocate_batch_pairwise_distinct_witness :
    1 ≤ (VideoScheduler.mk 6 16 2).interval_hours ∧
      (allocate_batch (VideoScheduler.mk 6 16 2) [] 1740 3).Pairwise (· ≠ ·) :=
  ⟨by decide,
   allocate_batch_pairwise_distinct (VideoScheduler.mk 6 16 2) [] 1740 3
     (by decide)⟩

/-- C5: for every occupied set and every `now` (the earliest-valid instant
being derived from `now` as the top of the current hour plus five minutes),
the slot returned by `calculate_next_available_slot` is never earlier than
the earliest-valid instant, including in the horizon-exhausted fallback
branch. -/
theorem next_slot_ge_earliest_valid (c : VideoScheduler) (occ : List Nat)
    (now_local : Nat) (hs : c.start_hour < c.end_hour)
    (he : c.end_hour ≤ 23) (hiv : 1 ≤ c.interval_hours) :
    earliest_valid_time now_local ≤
      calculate_next_available_slot c occ now_local := by
  unfold calculate_next_available_slot
  cases hfind : free_slot_search c occ now_local with
  | some slot => exact (free_slot_search_some hfind).2.1
  | none =>
    show earliest_valid_time now_local ≤ fallback_slot c occ now_local
    have hall := free_slot_search_none hfind
    have hmem29 := first_slot_mem_potential c now_local 29
      (by omega) (by omega) (by omega)
    have hev29 : earliest_valid_time now_local ≤
        (day now_local + 29) * 1440 + c.start_hour * 60 := by
      simp only [earliest_valid_time, truncHour, day]
      have := hourOf_lt_24 now_local
      simp only [hourOf] at this
      omega
    have hocc29 := hall _ hmem29 hev29
    cases hmax : occ.max? with
    | none =>
      rw [List.max?_eq_none_iff] at hmax
      subst hmax
      cases hocc29
    | some last =>
      have h1 := le_of_mem_max? hocc29 hmax
      have h2 := fallback_slot_gt_max now_local hiv hmax
      omega

/-- Witness for C5: with the reference configuration, occupied slots at
02-Jan 06:00 and 08:00 and `now` = 02-Jan 07:30, the returned slot (10:00)
is at or after the earliest-valid instant 07:05. -/
theorem next_slot_ge_earliest_valid_witness :
    ((VideoScheduler.mk 6 16 2).start_hour < (VideoScheduler.mk 6 16 2).end_hour ∧
      (VideoScheduler.mk 6 16 2).end_hour ≤ 23 ∧
      1 ≤ (VideoScheduler.mk 6 16 2).interval_hours) ∧
    earliest_valid_time 1890 ≤
      calculate_next_available_slot (VideoScheduler.mk 6 16 2) [1800, 1920] 1890 :=
  ⟨by decide,
   next_slot_ge_earliest_valid (VideoScheduler.mk 6 16 2) [1800, 1920] 1890
     (by decide) (by decide) (by decide)⟩

/-- C7: if the occupied set contains every slot of the calendar day
containing the earliest-valid instant (the day of `now`), the allocator
returns a slot on a strictly later calendar day. -/
theorem next_slot_skips_full_day (c : VideoScheduler) (occ : List Nat)
    (now_local : Nat) (hs : c.start_hour < c.end_hour)
    (he : c.end_hour ≤ 23) (hiv : 1 ≤ c.interval_hours)
    (hocc : ∀ t ∈ day_slots c (replaceHourMinute0 now_local c.start_hour),
      t ∈ occ) :
    day now_local < day (calculate_next_available_slot c occ now_local) := by
  have hd0 : day (replaceHourMinute0 now_local c.start_hour) = day now_local := by
    simp only [day, replaceHourMinute0]
    omega
  unfold calculate_next_available_slot
  cases hfind : free_slot_search c occ now_local with
  | some slot =>
    show day now_local < day slot
    obtain ⟨hpot, hev, hnot⟩ := free_slot_search_some hfind
    obtain ⟨off, hoff, hmem⟩ := mem_potential_slots.mp hpot
    have hdm : day slot =
        day (replaceHourMinute0 now_local c.start_hour + 1440 * off) :=
      day_slots_mem_day (by omega) hmem
    have hdoff : day (replaceHourMinute0 now_local c.start_hour + 1440 * off)
        = day now_local + off := by
      simp only [day, replaceHourMinute0]
      omega
    rcases Nat.eq_zero_or_pos off with rfl | hposoff
    · exfalso
      rw [Nat.mul_zero, Nat.add_zero] at hmem
      exact hnot (hocc slot hmem)
    · omega
  | none =>
    show day now_local < day (fallback_slot c occ now_local)
    obtain ⟨l, hlmem, hld, hlh, hljump⟩ :=
      day_slots_last hs he hiv (replaceHourMinute0 now_local c.start_hour)
    have hlocc := hocc l hlmem
    cases hmax : occ.max? with
    | none =>
      rw [List.max?_eq_none_iff] at hmax
      subst hmax
      cases hlocc
    | some last =>
      have hlast := le_of_mem_max? hlocc hmax
      unfold fallback_slot
      rw [hmax]
      exact fallback_branch_day hiv he (by omega) (hld.trans hd0) hlh hlast
        hljump

set_option maxRecDepth 10000 in
/-- Witness for C7 (scenario S3 of the spec): all six slots of day 1 are
occupied and `now` is on day 1, so the returned slot is on a later day — in
fact the next day's `start_hour`, 3240 = day 2, 06:00, since day 2 is
free. -/
theorem next_slot_skips_full_day_witness :
    ((VideoScheduler.mk 6 16 2).start_hour < (VideoScheduler.mk 6 16 2).end_hour ∧
      (VideoScheduler.mk 6 16 2).end_hour ≤ 23 ∧
      1 ≤ (VideoScheduler.mk 6 16 2).interval_hours ∧
      (∀ t ∈ day_slots (VideoScheduler.mk 6 16 2)
        (replaceHourMinute0 1860 6),
        t ∈ [1800, 1920, 2040, 2160, 2280, 2400])) ∧
    day 1860 < day (calculate_next_available_slot (VideoScheduler.mk 6 16 2)
      [1800, 1920, 2040, 2160, 2280, 2400] 1860) ∧
    calculate_next_available_slot (VideoScheduler.mk 6 16 2)
      [1800, 1920, 2040, 2160, 2280, 2400] 1860 = 3240 :=
  ⟨⟨by decide, by decide, by decide, by decide⟩,
   next_slot_skips_full_day (VideoScheduler.mk 6 16 2)
     [1800, 1920, 2040, 2160, 2280, 2400] 1860
     (by decide) (by decide) (by decide) (by decide),
   by decide⟩

/-- C10: for every non-positive `video_count` (including negative counts),
`calculate_schedule` returns the empty list, without consulting the start
reference or `now` (the result is the same for every `start_date` and
`now_local`). -/
theorem calculate_schedule_nonpositive (c : VideoScheduler) (n : Int)
    (start_date : Option Nat) (now_local : Nat) (hn : n ≤ 0) :
    calculate_schedule c n start_date now_local = [] := by
  unfold calculate_schedule
  rw [if_pos hn]

/-- Witness for C10: a negative count yields the empty schedule. -/
theorem calculate_schedule_nonpositive_witness :
    (-1 : Int) ≤ 0 ∧
      calculate_schedule (VideoScheduler.mk 6 16 2) (-1) none 0 = [] :=
  ⟨by decide,
   calculate_schedule_nonpositive (VideoScheduler.mk 6 16 2) (-1) none 0
     (by decide)⟩

/-- Counterexample for C3: the claim says construction always fails when
`interval_hours < 1`, but `VideoScheduler(start_hour=6, end_hour=16,
interval_hours=-1)` constructs successfully (no validation is performed on
`interval_hours`; `-1 // ...` does not even raise `ZeroDivisionError`). -/
theorem init_accepts_negative_interval :
    (-1 : Int) < 1 ∧ (VideoScheduler.init 6 16 (-1)).isSome = true := by
  decide

/-- C3 amended: construction fails exactly when `start_hour ≥ end_hour`
(the explicit `ValueError`) or `interval_hours = 0` (an accidental
`ZeroDivisionError` in `_calculate_slots_per_day`); in particular it
succeeds for every `start_hour < end_hour` and `interval_hours ≥ 1`, as the
claim states, but also for every negative `interval_hours`. -/
theorem init_isSome_iff (s e iv : Int) :
    (VideoScheduler.init s e iv).isSome = true ↔ s < e ∧ iv ≠ 0 := by
  unfold VideoScheduler.init
  by_cases h1 : e ≤ s
  · rw [if_pos h1]
    constructor
    · intro h; cases h
    · intro h; omega
  · rw [if_neg h1]
    by_cases h2 : iv = 0
    · rw [if_pos h2]
      constructor
      · intro h; cases h
      · rintro ⟨-, hne⟩; exact absurd h2 hne
    · rw [if_neg h2]
      constructor
      · intro _; exact ⟨by omega, h2⟩
      · intro _; rfl

/-- Counterexample for C4: the claim says the validator never throws, but on
a schedule containing midnight (hour 0, outside the 6-16 window) the Python
code raises `ValueError` (modelled as `Except.error`) instead of returning a
structured violation list. -/
theorem validate_schedule_throws :
    validate_schedule (VideoScheduler.mk 6 16 2) [0] =
      Except.error "scheduled hour outside allowed range" := by
  rfl

theorem validate_from_ok_iff (c : VideoScheduler) :
    ∀ (l : List Nat) (prev : Nat),
      validate_from c prev l = Except.ok true ↔
        ((∀ t ∈ l, c.start_hour ≤ hourOf t ∧ hourOf t ≤ c.end_hour) ∧
          List.Chain'
            (fun a b => day a = day b → interval_violation c a b = false)
            (prev :: l)) := by
  intro l
  induction l with
  | nil =>
    intro prev
    simp [validate_from]
  | cons dt rest ih =>
    intro prev
    unfold validate_from
    by_cases h1 : hourOf dt < c.start_hour ∨ c.end_hour < hourOf dt
    · rw [if_pos h1]
      simp only [List.chain'_cons, List.mem_cons]
      constructor
      · intro h; cases h
      · rintro ⟨hall, -⟩
        have := hall dt (Or.inl rfl)
        omega
    · rw [if_neg h1]
      by_cases h2 : day prev = day dt ∧ interval_violation c prev dt = true
      · rw [if_pos h2]
        simp only [List.chain'_cons, List.mem_cons]
        constructor
        · intro h; cases h
        · rintro ⟨-, hP, -⟩
          have := hP h2.1
          rw [h2.2] at this
          cases this
      · rw [if_neg h2]
        rw [ih dt]
        simp only [List.chain'_cons, List.mem_cons]
        constructor
        · rintro ⟨hall, hchain⟩
          refine ⟨?_, ?_, hchain⟩
          · rintro t (rfl | ht)
            · omega
            · exact hall t ht
          · intro hd
            rcases Bool.eq_false_or_eq_true (interval_violation c prev dt)
              with hv | hv
            · exact absurd ⟨hd, hv⟩ h2
            · exact hv
        · rintro ⟨hall, -, hchain⟩
          exact ⟨fun t ht => hall t (Or.inr ht), hchain⟩

/-- C4 amended: the validator is a sound and complete check of the calendar
invariants, but it reports a violation by raising `ValueError` (modelled as
`Except.error`), not by returning a structured violation list:
`validate_schedule` returns `True` exactly when every instant's local hour
is within `[start_hour, end_hour]` and every same-day consecutive pair is
within 0.1 h of `interval_hours`; on any violating input it throws. -/
theorem validate_schedule_ok_iff (c : VideoScheduler) (schedule : List Nat) :
    validate_schedule c schedule = Except.ok true ↔
      ((∀ t ∈ schedule, c.start_hour ≤ hourOf t ∧ hourOf t ≤ c.end_hour) ∧
        List.Chain'
          (fun a b => day a = day b → interval_violation c a b = false)
          schedule) := by
  cases schedule with
  | nil => simp [validate_schedule]
  | cons dt rest =>
    simp only [validate_schedule]
    by_cases h1 : hourOf dt < c.start_hour ∨ c.end_hour < hourOf dt
    · rw [if_pos h1]
      simp only [List.mem_cons]
      constructor
      · intro h; cases h
      · rintro ⟨hall, -⟩
        have := hall dt (Or.inl rfl)
        omega
    · rw [if_neg h1]
      rw [validate_from_ok_iff c rest dt]
      simp only [List.mem_cons]
      constructor
      · rintro ⟨hall, hchain⟩
        refine ⟨?_, hchain⟩
        rintro t (rfl | ht)
        · omega
        · exact hall t ht
      · rintro ⟨hall, hchain⟩
        exact ⟨fun t ht => hall t (Or.inr ht), hchain⟩

theorem build_scheduled_times_filter (parse : String → Option Nat) :
    ∀ videos : List (Option String),
      build_scheduled_times parse (videos.filter fun v =>
        match v with
        | none => true
        | some s => decide (s = "") || (parse s).isSome)
      = build_scheduled_times parse videos := by
  intro videos
  induction videos with
  | nil => rfl
  | cons v vs ih =>
    cases v with
    | none =>
      simp only [List.filter_cons, build_scheduled_times, List.filterMap_cons]
      exact ih
    | some s =>
      by_cases hs : s = ""
      · subst hs
        simp only [List.filter_cons, build_scheduled_times,
          List.filterMap_cons]
        simpa [build_scheduled_times] using ih
      · cases hparse : parse s with
        | some d =>
          simp only [List.filter_cons, hs, hparse, build_scheduled_times,
            List.filterMap_cons]
          simpa [build_scheduled_times, hs, hparse] using congrArg
            (List.cons (truncHour d)) ih
        | none =>
          simp only [List.filter_cons, hs, hparse, build_scheduled_times,
            List.filterMap_cons]
          simpa [build_scheduled_times, hs, hparse] using ih

/-- C9: the allocator never fails because of an unparsable `publishAt`
timestamp: entries whose timestamp cannot be parsed (present, non-empty, but
rejected by the parser) are dropped, and the result equals the result
computed on the same list with those entries removed.  `parse` is
universally quantified: it models `parse_rfc3339_datetime`, whose string
handling delegates to the Python standard library and is outside the
repository; total in this embedding, so the claim holds for every parser
behaviour. -/
theorem next_slot_drops_unparsable (parse : String → Option Nat)
    (c : VideoScheduler) (videos : List (Option String)) (now_local : Nat) :
    calculate_next_available_slot_from_videos parse c videos now_local =
      calculate_next_available_slot_from_videos parse c
        (videos.filter fun v =>
          match v with
          | none => true
          | some s => decide (s = "") || (parse s).isSome) now_local := by
  unfold calculate_next_available_slot_from_videos
  rw [build_scheduled_times_filter]

theorem ensure_valid_start_props (c : VideoScheduler) (sd : Nat)
    (hs : c.start_hour < c.end_hour) (he : c.end_hour ≤ 23) :
    minuteOf (ensure_valid_start c sd) = 0 ∧
      c.start_hour ≤ hourOf (ensure_valid_start c sd) ∧
      hourOf (ensure_valid_start c sd) ≤ c.end_hour := by
  unfold ensure_valid_start
  simp only [truncHour, replaceHourMinute0, day, hourOf, minuteOf]
  split
  · omega
  · split <;> omega

theorem resolve_start_props (c : VideoScheduler) (start_date : Option Nat)
    (now_local : Nat) (hs : c.start_hour < c.end_hour)
    (he : c.end_hour ≤ 23) :
    minuteOf (resolve_start c start_date now_local) = 0 ∧
      c.start_hour ≤ hourOf (resolve_start c start_date now_local) ∧
      hourOf (resolve_start c start_date now_local) ≤ c.end_hour := by
  unfold resolve_start
  exact ensure_valid_start_props c _ hs he

theorem schedule_loop_length (c : VideoScheduler) :
    ∀ n cur, (schedule_loop c n cur).length = n := by
  intro n
  induction n with
  | zero => intro cur; rfl
  | succ m ih =>
    intro cur
    simp only [schedule_loop, List.length_cons, ih]

theorem hourOf_add_hours (x k : Nat) (hm : minuteOf x = 0)
    (hk : hourOf x + k ≤ 23) :
    hourOf (x + 60 * k) = hourOf x + k ∧ minuteOf (x + 60 * k) = 0 := by
  simp only [hourOf, minuteOf] at *
  omega

theorem schedule_loop_window (c : VideoScheduler)
    (hs : c.start_hour < c.end_hour)
    (hwrap : c.end_hour + c.interval_hours ≤ 23) :
    ∀ n cur, minuteOf cur = 0 → c.start_hour ≤ hourOf cur →
      hourOf cur ≤ c.end_hour + c.interval_hours →
      ∀ t ∈ schedule_loop c n cur,
        c.start_hour ≤ hourOf t ∧ hourOf t ≤ c.end_hour := by
  intro n
  induction n with
  | zero => intro cur _ _ _ t ht; cases ht
  | succ m ih =>
    intro cur hm hlo hhi t ht
    simp only [schedule_loop] at ht
    set cur' := if c.end_hour < hourOf cur then
      replaceHourMinute0 (cur + 1440) c.start_hour else cur with hcur'
    have hprops : minuteOf cur' = 0 ∧ c.start_hour ≤ hourOf cur' ∧
        hourOf cur' ≤ c.end_hour := by
      rw [hcur']
      split
      · simp only [replaceHourMinute0, day, hourOf, minuteOf]
        omega
      · exact ⟨hm, hlo, by omega⟩
    rcases List.mem_cons.mp ht with rfl | h2
    · exact ⟨hprops.2.1, hprops.2.2⟩
    · have hnext := hourOf_add_hours cur' c.interval_hours
        hprops.1 (by omega)
      exact ih (cur' + 60 * c.interval_hours) hnext.2 (by omega) (by omega)
        t h2

theorem lt_step_next {c : VideoScheduler} (hiv : 1 ≤ c.interval_hours)
    (a : Nat) :
    a < (if c.end_hour < hourOf (a + 60 * c.interval_hours) then
      replaceHourMinute0 (a + 60 * c.interval_hours + 1440) c.start_hour
    else a + 60 * c.interval_hours) := by
  simp only [replaceHourMinute0, day, hourOf, minuteOf]
  split <;> omega

theorem schedule_loop_chain (c : VideoScheduler)
    (hiv : 1 ≤ c.interval_hours) :
    ∀ n cur, List.Chain' (· < ·) (schedule_loop c n cur) := by
  intro n
  induction n with
  | zero => intro cur; exact List.chain'_nil
  | succ m ih =>
    intro cur
    simp only [schedule_loop]
    rw [List.chain'_cons']
    refine ⟨?_, ih _⟩
    intro y hy
    cases m with
    | zero =>
      simp only [schedule_loop, List.head?_nil, Option.mem_def] at hy
      cases hy
    | succ k =>
      simp only [schedule_loop, List.head?_cons, Option.mem_def,
        Option.some.injEq] at hy
      subst hy
      exact lt_step_next hiv _

/-- Counterexample for C2: under the validly constructed configuration
`start_hour=20, end_hour=22, interval_hours=12` (`start < end`,
`interval ≥ 1`, and within all documented field bounds), scheduling 2 videos
from the in-window reference 1200 (day 0, 20:00) produces the instant 1920
(day 1, 08:00), whose local hour 8 lies outside the window `[20, 22]`: the
slot arithmetic wrapped past midnight without triggering the
roll-to-next-day check (`8 > 22` is false). -/
theorem calculate_schedule_window_cx :
    1920 ∈ calculate_schedule (VideoScheduler.mk 20 22 12) 2 (some 1200) 0 ∧
      hourOf 1920 < 20 := by
  decide

/-- C2 amended: for every valid configuration (`start_hour < end_hour`,
`interval_hours ≥ 1`), every count `N ≥ 1`, every start reference and every
`now`, `calculate_schedule` returns exactly `N` strictly increasing
instants — unconditionally.  The window invariant
(`start_hour ≤ hour ≤ end_hour` for every returned instant) holds under the
additional proviso `end_hour + interval_hours ≤ 23` (no slot advance can
wrap past midnight); the counterexample shows it fails without that. -/
theorem calculate_schedule_count_sorted_window (c : VideoScheduler)
    (video_count : Int) (start_date : Option Nat) (now_local : Nat)
    (hs : c.start_hour < c.end_hour) (hiv : 1 ≤ c.interval_hours)
    (hn : 1 ≤ video_count) :
    (calculate_schedule c video_count start_date now_local).length =
        video_count.toNat ∧
      (calculate_schedule c video_count start_date now_local).Pairwise
        (· < ·) ∧
      (c.end_hour + c.interval_hours ≤ 23 →
        ∀ t ∈ calculate_schedule c video_count start_date now_local,
          c.start_hour ≤ hourOf t ∧ hourOf t ≤ c.end_hour) := by
  unfold calculate_schedule
  rw [if_neg (by omega : ¬ video_count ≤ 0)]
  refine ⟨schedule_loop_length c _ _, ?_, ?_⟩
  · rw [← List.chain'_iff_pairwise]
    exact schedule_loop_chain c hiv _ _
  · intro hwrap
    obtain ⟨hm0, hlo, hhi⟩ :=
      resolve_start_props c start_date now_local hs (by omega)
    exact schedule_loop_window c hs hwrap _ _ hm0 hlo (by omega)

/-- Witness for C2 amended (scenario S1 of the spec): 8 videos from
02-Jan 06:00 under the reference configuration. -/
theorem calculate_schedule_count_sorted_window_witness :
    ((VideoScheduler.mk 6 16 2).start_hour <
        (VideoScheduler.mk 6 16 2).end_hour ∧
      1 ≤ (VideoScheduler.mk 6 16 2).interval_hours ∧
      (1 : Int) ≤ 8) ∧
    ((calculate_schedule (VideoScheduler.mk 6 16 2) 8 (some 1800) 0).length =
        (8 : Int).toNat ∧
      (calculate_schedule (VideoScheduler.mk 6 16 2) 8 (some 1800) 0).Pairwise
        (· < ·) ∧
      ((VideoScheduler.mk 6 16 2).end_hour +
          (VideoScheduler.mk 6 16 2).interval_hours ≤ 23 →
        ∀ t ∈ calculate_schedule (VideoScheduler.mk 6 16 2) 8 (some 1800) 0,
          (VideoScheduler.mk 6 16 2).start_hour ≤ hourOf t ∧
            hourOf t ≤ (VideoScheduler.mk 6 16 2).end_hour)) :=
  ⟨⟨by decide, by decide, by decide⟩,
   calculate_schedule_count_sorted_window (VideoScheduler.mk 6 16 2) 8
     (some 1800) 0 (by decide) (by decide) (by decide)⟩

theorem ensure_valid_start_eq (c : VideoScheduler) (x : Nat)
    (hs : c.start_hour < c.end_hour) (he : c.end_hour ≤ 23) :
    ensure_valid_start c x =
      if hourOf x < c.start_hour then day x * 1440 + c.start_hour * 60
      else if c.end_hour < hourOf x then
        (day x + 1) * 1440 + c.start_hour * 60
      else truncHour x := by
  by_cases h1 : hourOf x < c.start_hour
  · simp only [ensure_valid_start]
    rw [if_pos h1, if_pos h1]
    simp only [truncHour, replaceHourMinute0, day, minuteOf]
    omega
  · by_cases h2 : c.end_hour < hourOf x
    · simp only [ensure_valid_start]
      rw [if_neg h1, if_neg h1, if_pos h2, if_pos h2]
      simp only [truncHour, replaceHourMinute0, day, minuteOf]
      omega
    · simp only [ensure_valid_start]
      rw [if_neg h1, if_neg h1, if_neg h2, if_neg h2]

/-- Counterexample for C6: the claim says a provided reference whose local
hour is at or above `end_hour` rolls to the next day's `start_hour`, but a
reference at exactly `end_hour` (960 = day 0, 16:00) is kept: the schedule
starts at 960 that same day, not at 1800 (day 1, 06:00). -/
theorem resolve_start_end_hour_cx :
    calculate_schedule (VideoScheduler.mk 6 16 2) 1 (some 960) 0 = [960] ∧
      hourOf 960 = (VideoScheduler.mk 6 16 2).end_hour ∧ day 960 = 0 := by
  decide

/-- C6 amended: the start-reference resolution of `calculate_schedule`
behaves as follows.  A provided reference below `start_hour` is clamped up
to `start_hour` the same day; at exactly `end_hour` it is kept (truncated to
the hour) — it does not roll; strictly above `end_hour` it rolls to the next
day's `start_hour`.  When the reference is omitted the start is computed
from `now` (not unconditionally tomorrow): before `start_hour` it is today
at `start_hour`; at or past `end_hour` it is tomorrow at `start_hour`;
inside the window it is the next interval-aligned slot today, or tomorrow's
`start_hour` if that slot would pass `end_hour`. -/
theorem resolve_start_resolution (c : VideoScheduler) (r now_local : Nat)
    (hs : c.start_hour < c.end_hour) (he : c.end_hour ≤ 23) :
    (hourOf r < c.start_hour →
      resolve_start c (some r) now_local =
        day r * 1440 + c.start_hour * 60) ∧
    (hourOf r = c.end_hour →
      resolve_start c (some r) now_local = truncHour r) ∧
    (c.end_hour < hourOf r →
      resolve_start c (some r) now_local =
        (day r + 1) * 1440 + c.start_hour * 60) ∧
    (hourOf now_local < c.start_hour →
      resolve_start c none now_local =
        day now_local * 1440 + c.start_hour * 60) ∧
    (c.end_hour ≤ hourOf now_local →
      resolve_start c none now_local =
        (day now_local + 1) * 1440 + c.start_hour * 60) ∧
    (c.start_hour ≤ hourOf now_local → hourOf now_local < c.end_hour →
      resolve_start c none now_local =
        (if c.start_hour +
            ((hourOf now_local - c.start_hour) / c.interval_hours + 1) *
              c.interval_hours ≤ c.end_hour then
          day now_local * 1440 +
            (c.start_hour +
              ((hourOf now_local - c.start_hour) / c.interval_hours + 1) *
                c.interval_hours) * 60
        else (day now_local + 1) * 1440 + c.start_hour * 60)) := by
  refine ⟨?_, ?_, ?_, ?_, ?_, ?_⟩
  · intro h1
    show ensure_valid_start c r = _
    rw [ensure_valid_start_eq c r hs he, if_pos h1]
  · intro h1
    show ensure_valid_start c r = _
    rw [ensure_valid_start_eq c r hs he,
      if_neg (by omega : ¬ hourOf r < c.start_hour),
      if_neg (by omega : ¬ c.end_hour < hourOf r)]
  · intro h1
    show ensure_valid_start c r = _
    rw [ensure_valid_start_eq c r hs he,
      if_neg (by omega : ¬ hourOf r < c.start_hour), if_pos h1]
  · intro h1
    show ensure_valid_start c (default_start c now_local) = _
    have hd : default_start c now_local =
        day now_local * 1440 + c.start_hour * 60 := by
      simp only [default_start, if_pos h1]
      rfl
    rw [hd, ensure_valid_start_eq c _ hs he]
    simp only [day, hourOf, truncHour, minuteOf]
    split
    · omega
    · split <;> omega
  · intro h1
    show ensure_valid_start c (default_start c now_local) = _
    have hd : default_start c now_local =
        day (now_local + 1440) * 1440 + c.start_hour * 60 := by
      simp only [default_start,
        if_neg (by omega : ¬ hourOf now_local < c.start_hour), if_pos h1]
      rfl
    rw [hd, ensure_valid_start_eq c _ hs he]
    simp only [day, hourOf, truncHour, minuteOf]
    split
    · omega
    · split <;> omega
  · intro h1 h2
    show ensure_valid_start c (default_start c now_local) = _
    simp only [default_start,
      if_neg (by omega : ¬ hourOf now_local < c.start_hour),
      if_neg (by omega : ¬ c.end_hour ≤ hourOf now_local)]
    set M := ((hourOf now_local - c.start_hour) / c.interval_hours + 1) *
      c.interval_hours with hM
    by_cases hnih : c.start_hour + M ≤ c.end_hour
    · rw [if_pos hnih, if_pos hnih, ensure_valid_start_eq c _ hs he]
      simp only [replaceHourMinute0, day, hourOf, truncHour, minuteOf]
      split
      · omega
      · split <;> omega
    · rw [if_neg hnih, if_neg hnih, ensure_valid_start_eq c _ hs he]
      simp only [replaceHourMinute0, day, hourOf, truncHour, minuteOf]
      split
      · omega
      · split <;> omega

/-- Witness for C6 amended: the reference configuration, provided reference
960 (day 0, 16:00) and `now` 450 (day 0, 07:30). -/
theorem resolve_start_resolution_witness :
    ((VideoScheduler.mk 6 16 2).start_hour <
        (VideoScheduler.mk 6 16 2).end_hour ∧
      (VideoScheduler.mk 6 16 2).end_hour ≤ 23) ∧
    ((hourOf 960 < (VideoScheduler.mk 6 16 2).start_hour →
      resolve_start (VideoScheduler.mk 6 16 2) (some 960) 450 =
        day 960 * 1440 + (VideoScheduler.mk 6 16 2).start_hour * 60) ∧
    (hourOf 960 = (VideoScheduler.mk 6 16 2).end_hour →
      resolve_start (VideoScheduler.mk 6 16 2) (some 960) 450 =
        truncHour 960) ∧
    ((VideoScheduler.mk 6 16 2).end_hour < hourOf 960 →
      resolve_start (VideoScheduler.mk 6 16 2) (some 960) 450 =
        (day 960 + 1) * 1440 + (VideoScheduler.mk 6 16 2).start_hour * 60) ∧
    (hourOf 450 < (VideoScheduler.mk 6 16 2).start_hour →
      resolve_start (VideoScheduler.mk 6 16 2) none 450 =
        day 450 * 1440 + (VideoScheduler.mk 6 16 2).start_hour * 60) ∧
    ((VideoScheduler.mk 6 16 2).end_hour ≤ hourOf 450 →
      resolve_start (VideoScheduler.mk 6 16 2) none 450 =
        (day 450 + 1) * 1440 + (VideoScheduler.mk 6 16 2).start_hour * 60) ∧
    ((VideoScheduler.mk 6 16 2).start_hour ≤ hourOf 450 →
      hourOf 450 < (VideoScheduler.mk 6 16 2).end_hour →
      resolve_start (VideoScheduler.mk 6 16 2) none 450 =
        (if (VideoScheduler.mk 6 16 2).start_hour +
            ((hourOf 450 - (VideoScheduler.mk 6 16 2).start_hour) /
                (VideoScheduler.mk 6 16 2).interval_hours + 1) *
              (VideoScheduler.mk 6 16 2).interval_hours ≤
            (VideoScheduler.mk 6 16 2).end_hour then
          day 450 * 1440 +
            ((VideoScheduler.mk 6 16 2).start_hour +
              ((hourOf 450 - (VideoScheduler.mk 6 16 2).start_hour) /
                  (VideoScheduler.mk 6 16 2).interval_hours + 1) *
                (VideoScheduler.mk 6 16 2).interval_hours) * 60
        else (day 450 + 1) * 1440 +
          (VideoScheduler.mk 6 16 2).start_hour * 60))) :=
  ⟨⟨by decide, by decide⟩,
   resolve_start_resolution (VideoScheduler.mk 6 16 2) 960 450 (by decide)
     (by decide)⟩

/-- C8: when the 30-day horizon contains no free slot at or after the
earliest-valid instant, `calculate_next_available_slot` still returns (the
embedding is total — no exception path exists) and the result is the
documented deterministic fallback: `max(occupied) + interval_hours`, rolled
to the next day's `start_hour` if its hour exceeds `end_hour` and clamped up
to `start_hour` if below it, when the occupied set is non-empty; tomorrow's
`start_hour` when it is empty. -/
theorem next_slot_fallback_eq (c : VideoScheduler) (occ : List Nat)
    (now_local : Nat)
    (hex : ∀ slot ∈ potential_slots c now_local,
      earliest_valid_time now_local ≤ slot → slot ∈ occ) :
    (occ = [] → calculate_next_available_slot c occ now_local =
      replaceHourMinute0 (now_local + 1440) c.start_hour) ∧
    ∀ last, occ.max? = some last →
      calculate_next_available_slot c occ now_local =
        (if c.end_hour < hourOf (last + 60 * c.interval_hours) then
          replaceHour (last + 60 * c.interval_hours + 1440) c.start_hour
        else if hourOf (last + 60 * c.interval_hours) < c.start_hour then
          replaceHour (last + 60 * c.interval_hours) c.start_hour
        else last + 60 * c.interval_hours) := by
  have hfind : free_slot_search c occ now_local = none := by
    unfold free_slot_search
    rw [List.find?_eq_none]
    intro x hx
    simp only [decide_eq_true_eq]
    rintro ⟨hev, hnot⟩
    exact hnot (hex x hx hev)
  constructor
  · intro hocc
    subst hocc
    unfold calculate_next_available_slot
    rw [hfind]
    rfl
  · intro last hmax
    unfold calculate_next_available_slot
    rw [hfind]
    show fallback_slot c occ now_local = _
    unfold fallback_slot
    rw [hmax]

/-- Witness for C8: the one-slot-per-day configuration `6/7/2` with the 06:00
slots of days 1-29 occupied and `now` = day 0, 06:00 exhausts the horizon;
the fallback returns `max(occupied) + 2h = day 29, 08:00`, rolled to day 30,
06:00 = 43560. -/
theorem next_slot_fallback_eq_witness :
    (∀ slot ∈ potential_slots (VideoScheduler.mk 6 7 2) 360,
      earliest_valid_time 360 ≤ slot → slot ∈ occ_exhausted) ∧
    occ_exhausted.max? = some 42120 ∧
    calculate_next_available_slot (VideoScheduler.mk 6 7 2) occ_exhausted
      360 = 43560 :=
  ⟨by decide, by decide,
   ((next_slot_fallback_eq (VideoScheduler.mk 6 7 2) occ_exhausted 360
     (by decide)).2 42120 (by decide)).trans (by decide)⟩

end TinyshScheduler
